import Mathlib

/-!
# Verification of gaupol's TextAgent (src/gaupol/agents/text.py)

Shallow embedding of the automatic text-correction engine: the four batch
operations `capitalize`, `correct_common_errors`, `remove_hearing_impaired`
and `break_lines` of `TextAgent`, together with the helpers
`_capitalize_position`, `_capitalize_text`, `_get_subtitutions` and
`_remove_leftover_spaces`.

Modelling conventions:
* Texts are Lean `String`s; all character-level work is done on `String.data`
  (lists of characters) with structural recursions so that every definition
  is executable and every concrete claim can be settled by `decide`/`rfl`.
* A compiled regular expression is modelled abstractly as a `CompiledPattern`:
  a `find` function producing the next match span (used by the parser's
  `next()`) and a `subst` function performing `replace_all` over the whole
  buffer and returning the substitution count.  Concrete instances used in
  the theorems (literal substitution, the bracket pattern `\[.*?\]`) are
  defined below and are faithful to Python `re` semantics for those patterns
  (leftmost, non-overlapping matching).
* Python's `\w` under `re.UNICODE` is modelled on its ASCII fragment
  (letters, digits, underscore); all concrete inputs in this file are ASCII.
* The `aeidon.Parser`, `aeidon.Liner`, `gaupol.util.get_ranges` and the
  revertable-action machinery (`replace_texts`, `remove_subtitles`,
  `group_actions`, `set_action_description`) are not part of the given
  sources; they are modelled from the spec where marked.
* Fallible code returns `Except Err`; the source raises `AssertionError`
  (contract checks), `ValueError` (invalid document) and `re.error`
  (bad pattern / bad replacement), which we map to `Err.invalidIndex`,
  `Err.invalidDocument` and `Err.badPattern`.  As in the source, all
  collection mutations (`replace_texts`, `remove_subtitles`) happen only
  after the per-entry scan has completed, so an error result carries no
  mutated project.
-/

namespace Gaupol

/-- ASCII fragment of Python's `\w` (`re.UNICODE`): letter, digit or `_`. -/
def isWordChar (c : Char) : Bool :=
  c.isAlpha || c.isDigit || c == '_'

/-- ASCII fragment of Python's `\s`: space, tab, newline, CR, FF, VT. -/
def isWs (c : Char) : Bool :=
  c == ' ' || c == '\t' || c == '\n' || c == '\r' || c == '\x0b' || c == '\x0c'

/-- Index of the first word character of a character list, if any. -/
def firstWordIndex : List Char → Option Nat
  | [] => none
  | c :: rest =>
    if isWordChar c then some 0 else (firstWordIndex rest).map (· + 1)

/-- Model of `TextAgent._re_capitalizable`, the regex `^\W*(?<!\.\.\.)\w` searched in
`parser.text[pos:]`: it matches iff the suffix has a first word character
that is not immediately preceded by the literal three-character sequence
`...`.  Because of the `^` anchor a successful match always starts at
offset 0 of the suffix. -/
def capitalizableFrom (l : List Char) : Bool :=
  match firstWordIndex l with
  | none => false
  | some k => !(decide (3 ≤ k) && decide ((l.drop (k - 3)).take 3 = ['.', '.', '.']))

/-- Uppercase the character at byte-free list position `pos` (Python
`text[a:a+1].capitalize()` on a one-character slice). -/
def setUpperAt (s : String) (pos : Nat) : String :=
  ⟨s.data.take pos ++
    (match s.data.drop pos with
     | [] => []
     | c :: rest => c.toUpper :: rest)⟩

/-- Model of `TextAgent._capitalize_position`: search `_re_capitalizable` in
`parser.text[pos:]`; on a match, `a = pos + match.start() = pos` (the match
is anchored), so the character at `pos` itself is capitalized.  Returns the
new text and whether a match was found. -/
def capitalizePosition (t : String) (pos : Nat) : String × Bool :=
  if capitalizableFrom (t.data.drop pos) then (setUpperAt t pos, true)
  else (t, false)

/-- A compiled regular expression together with its replacement template,
modelled abstractly (see the file header). -/
structure CompiledPattern where
  /-- Next match span `(start, end)` in the text at/after a position. -/
  find : String → Nat → Option (Nat × Nat)
  /-- `replace_all` over a whole buffer: new buffer and substitution count. -/
  subst : String → String × Nat

/-- The `Capitalize` field of a correction pattern. -/
inductive CapMode where
  | noCap
  | capStart
  | capAfter
  deriving DecidableEq, Repr

/-- A correction pattern as consumed by `TextAgent` (`get_field "Pattern"`,
`get_flags`, `get_field "Replacement"`, `enabled`, `get_field_boolean
"Repeat"`, `get_field "Capitalize"`).  `compiled = none` models a source
that fails to compile (`re.error` at `re.compile`/`set_regex`); `replOk =
false` models a replacement template referencing a non-existent group
(`re.error` at `replace_all`). -/
structure Pattern where
  enabled : Bool
  repeatFlag : Bool
  capMode : CapMode
  compiled : Option CompiledPattern
  replOk : Bool

/-- Errors surfaced by the batch operations. -/
inductive Err where
  | badPattern
  | invalidIndex
  | invalidDocument
  deriving DecidableEq, Repr

/-- One subtitle entry: the main and translation text fields. -/
structure Subtitle where
  main : String
  tran : String
  deriving DecidableEq, Repr

/-- Model of `subtitle.get_text(doc)` with `MAIN = 0`, `TRAN = 1`. -/
def Subtitle.getDocText (s : Subtitle) (doc : Nat) : String :=
  if doc == 0 then s.main else s.tran

/-- Model of `subtitle.set_text(doc, text)`. -/
def Subtitle.setDocText (s : Subtitle) (doc : Nat) (t : String) : Subtitle :=
  if doc == 0 then { s with main := t } else { s with tran := t }

/-- A sub-operation recorded by a revertable action.
Modelled from the spec: SubtitleCollection exposes `set_text` and `remove`,
and every mutating operation is recorded through the action history. -/
inductive SubOp where
  | replaceTexts : List Nat → Nat → List String → SubOp
  | removeSubtitles : List Nat → SubOp
  deriving DecidableEq, Repr

/-- A committed revertable action: a description and the grouped
sub-operations it reverses as one unit.  Modelled from the spec (§4.4). -/
structure RAction where
  description : String
  ops : List SubOp
  deriving DecidableEq, Repr

/-- The subtitle collection plus the undo stack of committed actions. -/
structure Project where
  subtitles : List Subtitle
  actions : List RAction
  deriving DecidableEq, Repr

/-- Text of entry `index` for document `doc` (callers establish bounds). -/
def Project.textAt (p : Project) (doc : Nat) (index : Nat) : String :=
  ((p.subtitles.get? index).getD ⟨"", ""⟩).getDocText doc

/-- Set the text of the entry at `i` (out-of-range indexes leave the list
unchanged; callers establish bounds). -/
def listSetText : List Subtitle → Nat → Nat → String → List Subtitle
  | [], _, _, _ => []
  | s :: rest, 0, doc, t => s.setDocText doc t :: rest
  | s :: rest, n + 1, doc, t => s :: listSetText rest n doc t

/-- Apply a parallel list of index/text replacements. -/
def setTexts (subs : List Subtitle) (idxs : List Nat) (doc : Nat)
    (texts : List String) : List Subtitle :=
  (idxs.zip texts).foldl (fun acc it => listSetText acc it.1 doc it.2) subs

/-- Modelled from the spec: `project.replace_texts(indexes, doc, texts,
register)` sets each text and records one revertable action (whose
description is attached afterwards via `set_action_description`). -/
def replaceTextsOp (p : Project) (idxs : List Nat) (doc : Nat)
    (texts : List String) : Project :=
  { subtitles := setTexts p.subtitles idxs doc texts,
    actions := p.actions ++ [⟨"", [SubOp.replaceTexts idxs doc texts]⟩] }

/-- Remove the entries whose collection index occurs in `idxs`. -/
def removeAtIndexes (subs : List Subtitle) (idxs : List Nat) : List Subtitle :=
  (subs.enum.filter (fun ix => !idxs.contains ix.1)).map (·.2)

/-- Modelled from the spec: `project.remove_subtitles(indexes, register)`
removes the entries and records one revertable action. -/
def removeSubtitlesOp (p : Project) (idxs : List Nat) : Project :=
  { subtitles := removeAtIndexes p.subtitles idxs,
    actions := p.actions ++ [⟨"", [SubOp.removeSubtitles idxs]⟩] }

/-- Replace the description of the most recently committed action
(`set_action_description`; modelled from the spec, which notes the label is
late-bound). -/
def setActionDescription (p : Project) (desc : String) : Project :=
  match p.actions.reverse with
  | [] => p
  | a :: rest => { p with actions := rest.reverse ++ [{ a with description := desc }] }

/-- Modelled from the spec (§4.4): `group_actions(register, count,
description)` merges the last `count` committed actions into a single
compound action carrying one description. -/
def groupActions (p : Project) (count : Nat) (desc : String) : Project :=
  let k := p.actions.length - count
  let merged : RAction :=
    ⟨desc, (p.actions.drop k).foldl (fun acc a => acc ++ a.ops) []⟩
  { p with actions := p.actions.take k ++ [merged] }

/-- The contract check `0 <= index < len(self.subtitles)` run by the
`*_require` methods over the explicitly given indexes (`indexes or []`). -/
def validIndexes (p : Project) (idxs : Option (List Nat)) : Bool :=
  (idxs.getD []).all (· < p.subtitles.length)

/-- Document selectors of `aeidon.documents`: `MAIN = 0`, `TRAN = 1`; any other selector makes
`get_parser`/`get_liner` raise `ValueError`. -/
def validDoc (doc : Nat) : Bool :=
  doc == 0 || doc == 1

/-- Model of `indexes = indexes or range(len(self.subtitles))`: `None` and the empty
list both select every index. -/
def resolveIndexes (p : Project) : Option (List Nat) → List Nat
  | none => List.range p.subtitles.length
  | some [] => List.range p.subtitles.length
  | some l => l

/-! ## Concrete pattern instances

Executable matchers used to instantiate `CompiledPattern` in the theorems.
They implement Python `re` semantics (leftmost, non-overlapping) for the
specific pattern shapes they model. -/

/-- First occurrence of the literal `pat` in `l` at or after list offset `i`. -/
def findLitAux (pat : List Char) : List Char → Nat → Option (Nat × Nat)
  | [], i => if pat.isPrefixOf [] then some (i, i + pat.length) else none
  | c :: rest, i =>
    if pat.isPrefixOf (c :: rest) then some (i, i + pat.length)
    else findLitAux pat rest (i + 1)

/-- The `find` of a compiled literal pattern: next match span at/after `pos`. -/
def findLit (lit : String) (s : String) (pos : Nat) : Option (Nat × Nat) :=
  findLitAux lit.data (s.data.drop pos) pos

/-- Leftmost non-overlapping replacement of the literal `p :: ps` by
`repl`.  The first argument is fuel (each step consumes at least one input
character, so `l.length` suffices); structural recursion on it keeps the
definition kernel-reducible. -/
def replaceAllLitAux (p : Char) (ps repl : List Char) : Nat → List Char → List Char × Nat
  | _, [] => ([], 0)
  | 0, l => (l, 0)
  | fuel + 1, c :: rest =>
    if (p :: ps).isPrefixOf (c :: rest) then
      let r := replaceAllLitAux p ps repl fuel (rest.drop ps.length)
      (repl ++ r.1, r.2 + 1)
    else
      let r := replaceAllLitAux p ps repl fuel rest
      (c :: r.1, r.2)

/-- Model of `re.sub` with a literal pattern: new buffer and substitution count. -/
def replaceAllLit (lit repl : String) (s : String) : String × Nat :=
  match lit.data with
  | [] => (s, 0)
  | p :: ps =>
    let r := replaceAllLitAux p ps repl.data s.data.length s.data
    (⟨r.1⟩, r.2)

/-- Compiled form of a literal pattern with a literal replacement. -/
def litPattern (lit repl : String) : CompiledPattern :=
  { find := findLit lit, subst := replaceAllLit lit repl }

/-- Offset of the first `]` in `l`, counting from `i`. -/
def findClose : List Char → Nat → Option Nat
  | [], _ => none
  | c :: rest, i => if c == ']' then some i else findClose rest (i + 1)

/-- The `find` of the pattern `\[.*?\]`: a `[` paired lazily with the next `]`. -/
def findBracketAux : List Char → Nat → Option (Nat × Nat)
  | [], _ => none
  | c :: rest, i =>
    if c == '[' then
      match findClose rest (i + 1) with
      | some j => some (i, j + 1)
      | none => findBracketAux rest (i + 1)
    else findBracketAux rest (i + 1)

/-- Model of `re.sub(r"\[.*?\]", "", ·)` over a character list: every `[` that is
followed by a `]` is deleted together with everything up to that `]`.  The
first argument is fuel (each step consumes at least one input character, so
`l.length` suffices). -/
def bracketSubstAux : Nat → List Char → List Char × Nat
  | _, [] => ([], 0)
  | 0, l => (l, 0)
  | fuel + 1, c :: rest =>
    if c == '[' && rest.contains ']' then
      let r := bracketSubstAux fuel ((rest.dropWhile (· != ']')).drop 1)
      (r.1, r.2 + 1)
    else
      let r := bracketSubstAux fuel rest
      (c :: r.1, r.2)

/-- Compiled form of the hearing-impaired pattern `\[.*?\]` with empty
replacement. -/
def bracketPattern : CompiledPattern :=
  { find := fun s pos => findBracketAux (s.data.drop pos) pos,
    subst := fun s => let r := bracketSubstAux s.data.length s.data; (⟨r.1⟩, r.2) }

/-! ## TextParser and `_capitalize_text`

The parser (`aeidon.Parser`) is modelled from the spec (§4.1): a text
buffer plus a cursor; `next()` produces the next match span from the cursor
forward and advances the cursor past the match. -/

/-- Modelled from the spec: the parser's buffer and cursor. -/
structure ParserState where
  text : String
  pos : Nat

/-- Model of `TextAgent._capitalize_text`: consume `parser.next()` until
`StopIteration`; on each match `(a, z)`, a `Start` pattern capitalizes at
the match start and an `After` pattern capitalizes after the match end,
recording in `cap_next` whether no character was available there.  The
source recursion has no fuel; ours takes fuel because an abstract `find`
need not advance (callers pass `text.length + 1`, which is exact for
matchers whose spans satisfy `pos < end`, as all instances here do). -/
def capitalizeText : Nat → CompiledPattern → CapMode → ParserState → Bool →
    ParserState × Bool
  | 0, _, _, st, capNext => (st, capNext)
  | fuel + 1, m, mode, st, capNext =>
    match m.find st.text st.pos with
    | none => (st, capNext)
    | some (a, z) =>
      match mode with
      | CapMode.capStart =>
        let r := capitalizePosition st.text a
        capitalizeText fuel m mode ⟨r.1, z⟩ capNext
      | CapMode.capAfter =>
        let r := capitalizePosition st.text z
        capitalizeText fuel m mode ⟨r.1, z⟩ (!r.2)
      | CapMode.noCap => capitalizeText fuel m mode ⟨st.text, z⟩ capNext

/-! ## `capitalize` -/

/-- Modelled from the spec: `gaupol.util.get_ranges` partitions an ordered
index set into maximal runs of consecutive integers (helper, accumulating
the current run in reverse). -/
def getRangesAux : List Nat → Nat → List Nat → List (List Nat)
  | [], _, cur => [cur.reverse]
  | y :: ys, prev, cur =>
    if y = prev + 1 then getRangesAux ys y (y :: cur)
    else cur.reverse :: getRangesAux ys y [y]

/-- Modelled from the spec: partition the index set into maximal runs of
consecutive integers. -/
def getRanges : List Nat → List (List Nat)
  | [] => []
  | x :: xs => getRangesAux xs x [x]

/-- The per-pattern loop of `TextAgent.capitalize`: for each enabled
pattern, compile it (`set_regex`, raising on a bad source), reset the
cursor, and thread the parser text and `cap_next` through
`_capitalize_text`. -/
def capPatterns : List Pattern → String → Bool → Except Err (String × Bool)
  | [], t, capNext => .ok (t, capNext)
  | pat :: rest, t, capNext =>
    match pat.compiled with
    | none => .error .badPattern
    | some m =>
      let r := capitalizeText (t.length + 1) m pat.capMode ⟨t, 0⟩ capNext
      capPatterns rest r.1.text r.2

/-- One entry of `TextAgent.capitalize`'s inner loop: capitalize position 0
when `cap_next` is set or the collection index is 0 (resetting `cap_next`),
then run every enabled pattern. -/
def capEntry (pats : List Pattern) (capNext : Bool) (index : Nat)
    (t : String) : Except Err (String × Bool) :=
  let s := if capNext || index == 0 then ((capitalizePosition t 0).1, false)
           else (t, capNext)
  capPatterns (pats.filter (·.enabled)) s.1 s.2

/-- Process one run of consecutive indexes, threading `cap_next` and
collecting the entries whose final text differs from the original. -/
def capRun (pats : List Pattern) (p : Project) (doc : Nat) :
    List Nat → Bool → Except Err (List (Nat × String))
  | [], _ => .ok []
  | i :: is, capNext =>
    match capEntry pats capNext i (p.textAt doc i) with
    | .error e => .error e
    | .ok r =>
      match capRun pats p doc is r.2 with
      | .error e => .error e
      | .ok rest =>
        .ok (if r.1 = p.textAt doc i then rest else (i, r.1) :: rest)

/-- Process every run, resetting `cap_next` to `False` at each run start. -/
def capRuns (pats : List Pattern) (p : Project) (doc : Nat) :
    List (List Nat) → Except Err (List (Nat × String))
  | [] => .ok []
  | r :: rs =>
    match capRun pats p doc r false with
    | .error e => .error e
    | .ok c1 =>
      match capRuns pats p doc rs with
      | .error e => .error e
      | .ok c2 => .ok (c1 ++ c2)

/-- Model of `TextAgent.capitalize`: contract check on the explicit indexes, document
validation (`get_parser`), run partitioning, per-entry capitalization, then
one committed action "Capitalizing texts" — or `none` (`NoChange`, the
source's `assert new_indexes` under `asserted_return`) when no text
changed. -/
def capitalize (p : Project) (idxs : Option (List Nat)) (doc : Nat)
    (pats : List Pattern) : Except Err (Option Project) :=
  if !validIndexes p idxs then .error .invalidIndex
  else if !validDoc doc then .error .invalidDocument
  else
    match capRuns pats p doc (getRanges (resolveIndexes p idxs)) with
    | .error e => .error e
    | .ok changes =>
      if changes.isEmpty then .ok none
      else .ok (some (setActionDescription
        (replaceTextsOp p (changes.map (·.1)) doc (changes.map (·.2)))
        "Capitalizing texts"))

/-! ## `correct_common_errors` -/

/-- The source's `while repeats[i] and count: count = parser.replace_all()`.
Fuel bounds the iterations; the source itself need not terminate (spec §7)
and all theorems below either leave the loop unentered or use patterns that
reach a fixed point within the supplied fuel. -/
def repeatLoop : Nat → CompiledPattern → String → Nat → String
  | _, _, t, 0 => t
  | 0, _, t, _ + 1 => t
  | fuel + 1, m, t, _ + 1 =>
    let r := m.subst t
    repeatLoop fuel m r.1 r.2

/-- The per-pattern loop of `TextAgent.correct_common_errors` over the
enabled patterns, with `i` enumerating them.  `reps` is
`[x.get_field_boolean("Repeat") for x in patterns]` built from the FULL,
unfiltered pattern table (source line 213), and the repeat decision reads
`repeats[i]` — so when an earlier pattern is disabled the flag consulted
belongs to a different pattern than the one being applied. -/
def ccePatterns (fuel : Nat) (reps : List Bool) :
    Nat → List Pattern → String → Except Err String
  | _, [], t => .ok t
  | i, pat :: rest, t =>
    match pat.compiled with
    | none => .error .badPattern
    | some m =>
      if pat.replOk then
        let r := m.subst t
        let t2 := if (reps.get? i).getD false then repeatLoop fuel m r.1 r.2
                  else r.1
        ccePatterns fuel reps (i + 1) rest t2
      else .error .badPattern

/-- Generic per-entry scan shared by `correct_common_errors` and
`remove_hearing_impaired`: apply `f` to each entry's text, propagate the
first error, and collect `(index, new_text)` for entries whose text
changed.  Mirrors the source loops, which mutate nothing while scanning. -/
def scanEntries (f : String → Except Err String) (p : Project) (doc : Nat) :
    List Nat → Except Err (List (Nat × String))
  | [] => .ok []
  | i :: is =>
    match f (p.textAt doc i) with
    | .error e => .error e
    | .ok t =>
      match scanEntries f p doc is with
      | .error e => .error e
      | .ok rest => .ok (if t = p.textAt doc i then rest else (i, t) :: rest)

/-- Model of `TextAgent.correct_common_errors`: flat iteration over the indexes,
applying every enabled pattern's `replace_all` in table order with the
repeat loop, then one committed action "Correcting common errors" — or
`none` (`NoChange`) when no text changed. -/
def correctCommonErrors (fuel : Nat) (p : Project) (idxs : Option (List Nat))
    (doc : Nat) (pats : List Pattern) : Except Err (Option Project) :=
  if !validIndexes p idxs then .error .invalidIndex
  else if !validDoc doc then .error .invalidDocument
  else
    match scanEntries
        (ccePatterns fuel (pats.map (·.repeatFlag)) 0 (pats.filter (·.enabled)))
        p doc (resolveIndexes p idxs) with
    | .error e => .error e
    | .ok changes =>
      if changes.isEmpty then .ok none
      else .ok (some (setActionDescription
        (replaceTextsOp p (changes.map (·.1)) doc (changes.map (·.2)))
        "Correcting common errors"))

/-- Modelled from the spec: the variant of the per-pattern loop in which
the repeat decision consults the repeat flag of the pattern being applied
("if a pattern's `repeat` flag is set, reapply `replace_all` with the same
pattern"), for comparison with `ccePatterns`. -/
def ccePatternsSpec (fuel : Nat) : List Pattern → String → Except Err String
  | [], t => .ok t
  | pat :: rest, t =>
    match pat.compiled with
    | none => .error .badPattern
    | some m =>
      if pat.replOk then
        let r := m.subst t
        let t2 := if pat.repeatFlag then repeatLoop fuel m r.1 r.2 else r.1
        ccePatternsSpec fuel rest t2
      else .error .badPattern

/-- Modelled from the spec: `correct_common_errors` as the spec describes
it, i.e. `correctCommonErrors` with the applied pattern's own repeat flag. -/
def correctCommonErrorsSpec (fuel : Nat) (p : Project)
    (idxs : Option (List Nat)) (doc : Nat) (pats : List Pattern) :
    Except Err (Option Project) :=
  if !validIndexes p idxs then .error .invalidIndex
  else if !validDoc doc then .error .invalidDocument
  else
    match scanEntries (ccePatternsSpec fuel (pats.filter (·.enabled)))
        p doc (resolveIndexes p idxs) with
    | .error e => .error e
    | .ok changes =>
      if changes.isEmpty then .ok none
      else .ok (some (setActionDescription
        (replaceTextsOp p (changes.map (·.1)) doc (changes.map (·.2)))
        "Correcting common errors"))

/-! ## `remove_hearing_impaired`

The seven substitutions of `TextAgent._remove_leftover_spaces` (source
lines 83-89).  Their regex sources are in the given code, but the parser's
regex engine and default flags are not; each step is modelled from the
spec's step list (1)-(7). -/

/-- Step 1, `(^\s+|\s+$)` → `""`. Modelled from the spec: trim
leading/trailing whitespace. -/
def trimWs (s : String) : String :=
  ⟨((s.data.dropWhile isWs).reverse.dropWhile isWs).reverse⟩

/-- Helper for step 2: drop every space directly following a kept space. -/
def collapseGo : Bool → List Char → List Char
  | _, [] => []
  | prevSpace, c :: rest =>
    if c == ' ' then
      if prevSpace then collapseGo true rest
      else ' ' :: collapseGo true rest
    else c :: collapseGo false rest

/-- Step 2, `" {2,}"` → `" "`: collapse runs of two or more spaces to one. -/
def collapseSpaces (s : String) : String :=
  ⟨collapseGo false s.data⟩

/-- Step 3, `^\W*$` → `""`. Modelled from the spec: blank out text
consisting solely of non-word characters (the empty text included). -/
def blankNonWord (s : String) : String :=
  if s.data.all (fun c => !isWordChar c) then "" else s

/-- Step 4, `(^\n|\n$)` → `""`. Modelled from the spec: trim
leading/trailing newline characters. -/
def trimNl (s : String) : String :=
  ⟨((s.data.dropWhile (· == '\n')).reverse.dropWhile (· == '\n')).reverse⟩

/-- Step 5, `^-(\S)` → `- \1`: insert a space after a leading dash with no
following whitespace. -/
def dashSpace (s : String) : String :=
  match s.data with
  | '-' :: c :: rest => if !isWs c then ⟨'-' :: ' ' :: c :: rest⟩ else s
  | _ => s

/-- Is some line start (a position right after a `\n`) occupied by a
character other than `-`? -/
def hasNonDashLineStart : List Char → Bool
  | [] => false
  | '\n' :: c :: rest => if c != '-' then true else hasNonDashLineStart (c :: rest)
  | _ :: rest => hasNonDashLineStart rest

/-- Step 6, `^- (.*?^[^-])` → `\1`. Modelled from the spec: merge a
dash-prefixed first line into a non-dash-prefixed continuation spanning
multiple lines (drop the leading `"- "` when a later line starts with a
character other than `-`). -/
def mergeDashLine (s : String) : String :=
  match s.data with
  | '-' :: ' ' :: rest =>
    if hasNonDashLineStart rest then ⟨rest⟩ else s
  | _ => s

/-- Step 7, `\A- ([^\n]*)\Z` → `\1`: strip a lone leading `"- "` wrapping
the entire (single-line) remaining text. -/
def stripLoneDash (s : String) : String :=
  match s.data with
  | '-' :: ' ' :: rest => if rest.all (· != '\n') then ⟨rest⟩ else s
  | _ => s

/-- The body of `_remove_leftover_spaces` for one text: the seven
`substitute` calls in source order. -/
def rlsEntry (s : String) : String :=
  let s := trimWs s
  let s := collapseSpaces s
  let s := blankNonWord s
  let s := trimNl s
  let s := dashSpace s
  let s := mergeDashLine s
  stripLoneDash s

/-- Model of `TextAgent._remove_leftover_spaces`: clean each text of the list. -/
def removeLeftoverSpaces (texts : List String) : List String :=
  texts.map rlsEntry

/-- The per-pattern loop of `TextAgent.remove_hearing_impaired`: one
`replace_all` per enabled pattern, no repeat support. -/
def rhiPatterns : List Pattern → String → Except Err String
  | [], t => .ok t
  | pat :: rest, t =>
    match pat.compiled with
    | none => .error .badPattern
    | some m =>
      if pat.replOk then rhiPatterns rest (m.subst t).1
      else .error .badPattern

/-- Model of `TextAgent.remove_hearing_impaired`: pattern pass collecting changed
entries, leftover-space cleanup of exactly those texts, one replacement
action labeled "Removing hearing impaired texts", then removal of the
entries whose cleaned text is empty, grouped with the replacement into one
action.  When no cleaned text is empty, the source's `assert
remove_indexes` fires under `asserted_return`: the replacement action
stays committed and no removal or grouping happens. -/
def removeHearingImpaired (p : Project) (idxs : Option (List Nat))
    (doc : Nat) (pats : List Pattern) : Except Err (Option Project) :=
  if !validIndexes p idxs then .error .invalidIndex
  else if !validDoc doc then .error .invalidDocument
  else
    match scanEntries (rhiPatterns (pats.filter (·.enabled))) p doc
        (resolveIndexes p idxs) with
    | .error e => .error e
    | .ok changes =>
      if changes.isEmpty then .ok none
      else
        let ni := changes.map (·.1)
        let nt := removeLeftoverSpaces (changes.map (·.2))
        let p1 := setActionDescription (replaceTextsOp p ni doc nt)
          "Removing hearing impaired texts"
        let ri := ((ni.zip nt).filter (fun it => it.2 == "")).map (·.1)
        if ri.isEmpty then .ok (some p1)
        else .ok (some (groupActions (removeSubtitlesOp p1 ri) 2
          "Removing hearing impaired texts"))

/-! ## `break_lines` -/

/-- Split a character list at every separator (Python `str.split`). -/
def splitListOn (sep : Char) : List Char → List (List Char)
  | [] => [[]]
  | c :: rest =>
    match splitListOn sep rest with
    | [] => [[c]]
    | h :: t => if c == sep then [] :: h :: t else (c :: h) :: t

/-- Model of `text.split("\n")`. -/
def splitLines (s : String) : List String :=
  (splitListOn '\n' s.data).map (⟨·⟩)

/-- Maximum of a list of naturals (0 for the empty list; the source only
takes the maximum over the non-empty line list of a split). -/
def maxList (l : List Nat) : Nat :=
  l.foldl Nat.max 0

/-- The per-entry body of `TextAgent.break_lines`: `some new_text` when the
entry is collected, `none` when it is skipped or unchanged.  `breakFn`
abstracts the configured `liner.break_lines()` (the `aeidon.Liner` is not
part of the given sources); `reTag` abstracts the optional markup tag regex
as a tag-stripping substitution.  Mirrors the source exactly: when `reTag`
is `none`, `tagless_text` is NOT recomputed from the candidate, so the
improvement check compares the original text's metrics with themselves. -/
def blEntry (breakFn : String → String) (reTag : Option (String → String))
    (lengthFunc : String → Nat) (skip : Bool)
    (maxSkipLength maxSkipLines : Nat) (orig : String) : Option String :=
  let tagless0 := match reTag with | some f => f orig | none => orig
  let lines0 := splitLines tagless0
  let length0 := maxList (lines0.map lengthFunc)
  let count0 := lines0.length
  if length0 ≤ maxSkipLength && count0 ≤ maxSkipLines && skip then none
  else
    let text := breakFn orig
    let tagless1 := match reTag with | some f => f text | none => tagless0
    let lines1 := splitLines tagless1
    let lengthDown := decide (maxList (lines1.map lengthFunc) < length0)
    let linesDown := decide (lines1.length < count0)
    let lengthFixed := decide (maxSkipLength < length0) && lengthDown
    let linesFixed := decide (maxSkipLines < count0) && linesDown
    if !lengthFixed && !linesFixed && skip then none
    else if text == orig then none else some text

/-- The entry loop of `break_lines`, collecting `(index, new_text)`. -/
def blScan (breakFn : String → String) (reTag : Option (String → String))
    (lengthFunc : String → Nat) (skip : Bool)
    (maxSkipLength maxSkipLines : Nat) (p : Project) (doc : Nat) :
    List Nat → List (Nat × String)
  | [] => []
  | i :: is =>
    match blEntry breakFn reTag lengthFunc skip maxSkipLength maxSkipLines
        (p.textAt doc i) with
    | some t => (i, t) :: blScan breakFn reTag lengthFunc skip maxSkipLength
        maxSkipLines p doc is
    | none => blScan breakFn reTag lengthFunc skip maxSkipLength maxSkipLines
        p doc is

/-- Model of `TextAgent.break_lines`: contract check, eager compilation of every
enabled pattern (source lines 114-115, BEFORE the liner/document lookup),
document validation (`get_liner`), the skip/improvement scan, then one
committed action "Breaking lines" — or `none` (`NoChange`).  `max_length`,
`max_lines` and `max_deviation` only configure the liner and are absorbed
into `breakFn`. -/
def breakLines (p : Project) (idxs : Option (List Nat)) (doc : Nat)
    (pats : List Pattern) (breakFn : String → String)
    (reTag : Option (String → String)) (lengthFunc : String → Nat)
    (skip : Bool) (maxSkipLength maxSkipLines : Nat) :
    Except Err (Option Project) :=
  if !validIndexes p idxs then .error .invalidIndex
  else if (pats.filter (·.enabled)).any (fun x => x.compiled.isNone) then
    .error .badPattern
  else if !validDoc doc then .error .invalidDocument
  else
    let changes := blScan breakFn reTag lengthFunc skip maxSkipLength
      maxSkipLines p doc (resolveIndexes p idxs)
    if changes.isEmpty then .ok none
    else .ok (some (setActionDescription
      (replaceTextsOp p (changes.map (·.1)) doc (changes.map (·.2)))
      "Breaking lines"))

/-- The pure text transformation of one `replace_all` pass over a pattern
list whose members all compile (skipping uncompiled ones, which cannot
occur under the goodness hypotheses used below). -/
def rhiApply : List Pattern → String → String
  | [], t => t
  | pat :: rest, t =>
    match pat.compiled with
    | none => rhiApply rest t
    | some m => rhiApply rest (m.subst t).1

/-- The sub-operations recorded by an operation that turned `p` into `q`:
everything the new actions on the undo stack carry. -/
def newOps (p q : Project) : List SubOp :=
  ((q.actions.drop p.actions.length).map (·.ops)).flatten

/-! ## Supporting lemmas -/

/-- Elements of the runs produced by `getRangesAux` come from the
accumulator or the remaining input. -/
theorem getRangesAux_mem : ∀ (ys : List Nat) (prev : Nat) (cur : List Nat)
    (r : List Nat), r ∈ getRangesAux ys prev cur → ∀ x ∈ r, x ∈ cur ∨ x ∈ ys := by
  intro ys
  induction ys with
  | nil =>
    intro prev cur r hr x hx
    simp only [getRangesAux, List.mem_singleton] at hr
    subst hr
    exact Or.inl (List.mem_reverse.mp hx)
  | cons y ys ih =>
    intro prev cur r hr x hx
    simp only [getRangesAux] at hr
    by_cases hy : y = prev + 1
    · rw [if_pos hy] at hr
      rcases ih y (y :: cur) r hr x hx with h | h
      · rcases List.mem_cons.mp h with h | h
        · exact Or.inr (by simp [h])
        · exact Or.inl h
      · exact Or.inr (by simp [h])
    · rw [if_neg hy] at hr
      rcases List.mem_cons.mp hr with h | h
      · subst h
        exact Or.inl (List.mem_reverse.mp hx)
      · rcases ih y [y] r h x hx with h' | h'
        · simp only [List.mem_singleton] at h'
          exact Or.inr (by simp [h'])
        · exact Or.inr (by simp [h'])

/-- Elements of the runs of `getRanges l` are elements of `l`. -/
theorem getRanges_mem {l : List Nat} {r : List Nat} {x : Nat}
    (hr : r ∈ getRanges l) (hx : x ∈ r) : x ∈ l := by
  cases l with
  | nil => simp [getRanges] at hr
  | cons a as =>
    rcases getRangesAux_mem as a [a] r hr x hx with h | h
    · simp only [List.mem_singleton] at h
      simp [h]
    · simp [h]

/-- With no patterns, an entry off index 0 with clear carry-over state is
returned unchanged with the carry-over still clear. -/
theorem capEntry_nil {i : Nat} (t : String) (hi : i ≠ 0) :
    capEntry [] false i t = .ok (t, false) := by
  have h0 : (i == 0) = false := by
    simp [hi]
  simp [capEntry, h0, capPatterns]

/-- With no patterns, a run avoiding index 0 collects nothing. -/
theorem capRun_nil (p : Project) (doc : Nat) :
    ∀ (r : List Nat), (∀ i ∈ r, i ≠ 0) →
      capRun [] p doc r false = .ok [] := by
  intro r
  induction r with
  | nil => intro _; rfl
  | cons i is ih =>
    intro h
    have hi : i ≠ 0 := h i (by simp)
    simp [capRun, capEntry_nil (p.textAt doc i) hi,
      ih (fun j hj => h j (by simp [hj]))]

/-- With no patterns, runs avoiding index 0 collect nothing. -/
theorem capRuns_nil (p : Project) (doc : Nat) :
    ∀ (rs : List (List Nat)), (∀ r ∈ rs, ∀ i ∈ r, i ≠ 0) →
      capRuns [] p doc rs = .ok [] := by
  intro rs
  induction rs with
  | nil => intro _; rfl
  | cons r rest ih =>
    intro h
    simp only [capRuns, capRun_nil p doc r (h r (by simp)),
      ih (fun r' hr' => h r' (by simp [hr']))]
    rfl

/-- Setting one text preserves the number of entries. -/
theorem listSetText_length : ∀ (subs : List Subtitle) (i doc : Nat) (t : String),
    (listSetText subs i doc t).length = subs.length := by
  intro subs
  induction subs with
  | nil => intro i doc t; cases i <;> rfl
  | cons s rest ih =>
    intro i doc t
    cases i with
    | zero => rfl
    | succ n => simp [listSetText, ih]

/-- Replacing texts preserves the number of entries. -/
theorem setTexts_length (idxs : List Nat) (doc : Nat) (texts : List String) :
    ∀ subs : List Subtitle, (setTexts subs idxs doc texts).length = subs.length := by
  unfold setTexts
  generalize idxs.zip texts = l
  induction l with
  | nil => intro subs; rfl
  | cons it rest ih =>
    intro subs
    simp only [List.foldl_cons]
    rw [ih, listSetText_length]

/-- The `set_action_description` step does not touch the subtitles. -/
theorem setActionDescription_subtitles (p : Project) (d : String) :
    (setActionDescription p d).subtitles = p.subtitles := by
  unfold setActionDescription
  cases p.actions.reverse <;> rfl

/-- A scan over entries whose text is a fixed point collects nothing. -/
theorem scanEntries_fixed (f : String → Except Err String) (p : Project)
    (doc : Nat) : ∀ l : List Nat,
    (∀ i ∈ l, f (p.textAt doc i) = .ok (p.textAt doc i)) →
    scanEntries f p doc l = .ok [] := by
  intro l
  induction l with
  | nil => intro _; rfl
  | cons i is ih =>
    intro h
    simp [scanEntries, h i (by simp), ih (fun j hj => h j (by simp [hj]))]

/-- The contract check only depends on the entry count. -/
theorem validIndexes_congr {p q : Project} (idxs : Option (List Nat))
    (h : p.subtitles.length = q.subtitles.length) :
    validIndexes p idxs = validIndexes q idxs := by
  simp [validIndexes, h]

/-- At the very end of the text there is nothing to capitalize. -/
theorem capitalizePosition_at_length (t : String) :
    capitalizePosition t t.length = (t, false) := by
  have h : t.data.drop t.length = [] := List.drop_length t.data
  unfold capitalizePosition
  rw [h]
  rfl

/-- The `_capitalize_text` recursion stops as soon as the parser has no
further match. -/
theorem capitalizeText_stop (fuel : Nat) (m : CompiledPattern) (mode : CapMode)
    (st : ParserState) (cn : Bool) (h : m.find st.text st.pos = none) :
    capitalizeText fuel m mode st cn = (st, cn) := by
  cases fuel with
  | zero => rfl
  | succ n =>
    simp only [capitalizeText, h]

/-- Unfolding `capPatterns` over one successfully compiled pattern. -/
theorem capPatterns_cons_some (pat : Pattern) (rest : List Pattern)
    (t : String) (cn : Bool) (m : CompiledPattern) (h : pat.compiled = some m) :
    capPatterns (pat :: rest) t cn =
      capPatterns rest
        (capitalizeText (t.length + 1) m pat.capMode ⟨t, 0⟩ cn).1.text
        (capitalizeText (t.length + 1) m pat.capMode ⟨t, 0⟩ cn).2 := by
  simp only [capPatterns, h]

/-- A pattern list containing an uncompilable pattern makes the capitalize
pattern loop raise at the first entry processed. -/
theorem capPatterns_bad : ∀ (pats : List Pattern) (t : String) (cn : Bool),
    (∃ pat ∈ pats, pat.compiled = none) →
    capPatterns pats t cn = .error .badPattern := by
  intro pats
  induction pats with
  | nil => intro t cn h; simp at h
  | cons pat rest ih =>
    intro t cn h
    cases hpc : pat.compiled with
    | none => simp [capPatterns, hpc]
    | some m =>
      rcases h with ⟨pat', hmem, hbad⟩
      rcases List.mem_cons.mp hmem with heq | hmem'
      · subst heq
        rw [hpc] at hbad
        exact absurd hbad (by simp)
      · simp only [capPatterns, hpc]
        exact ih _ _ ⟨pat', hmem', hbad⟩

/-- Same, lifted to a whole entry. -/
theorem capEntry_bad {pats : List Pattern}
    (h : ∃ pat ∈ pats.filter (·.enabled), pat.compiled = none)
    (cn : Bool) (i : Nat) (t : String) :
    capEntry pats cn i t = .error .badPattern :=
  capPatterns_bad _ _ _ h

/-- Same, lifted to a non-empty run. -/
theorem capRun_bad {pats : List Pattern}
    (h : ∃ pat ∈ pats.filter (·.enabled), pat.compiled = none)
    (p : Project) (doc : Nat) (i : Nat) (is : List Nat) (cn : Bool) :
    capRun pats p doc (i :: is) cn = .error .badPattern := by
  simp only [capRun, capEntry_bad h]

/-- A non-empty accumulator yields a non-empty first run. -/
theorem getRangesAux_shape : ∀ (ys : List Nat) (prev : Nat) (cur : List Nat),
    cur ≠ [] → ∃ r rs, getRangesAux ys prev cur = r :: rs ∧ r ≠ [] := by
  intro ys
  induction ys with
  | nil =>
    intro prev cur hcur
    exact ⟨cur.reverse, [], rfl, by simpa using hcur⟩
  | cons y ys ih =>
    intro prev cur hcur
    simp only [getRangesAux]
    by_cases hy : y = prev + 1
    · rw [if_pos hy]
      exact ih y (y :: cur) (by simp)
    · rw [if_neg hy]
      exact ⟨cur.reverse, _, rfl, by simpa using hcur⟩

/-- A non-empty index list yields a non-empty first run. -/
theorem getRanges_shape {l : List Nat} (h : l ≠ []) :
    ∃ i is rs, getRanges l = (i :: is) :: rs := by
  cases l with
  | nil => exact absurd rfl h
  | cons a as =>
    rcases getRangesAux_shape as a [a] (by simp) with ⟨r, rs, hr, hne⟩
    cases r with
    | nil => exact absurd rfl hne
    | cons i is => exact ⟨i, is, rs, by simpa [getRanges] using hr⟩

/-- A bad pattern in the table makes the common-error pattern loop raise,
wherever the enumeration index stands. -/
theorem ccePatterns_bad (fuel : Nat) (reps : List Bool) :
    ∀ (pats : List Pattern) (i : Nat) (t : String),
    (∃ pat ∈ pats, pat.compiled = none ∨ pat.replOk = false) →
    ccePatterns fuel reps i pats t = .error .badPattern := by
  intro pats
  induction pats with
  | nil => intro i t h; simp at h
  | cons pat rest ih =>
    intro i t h
    cases hpc : pat.compiled with
    | none => simp [ccePatterns, hpc]
    | some m =>
      cases hro : pat.replOk with
      | false => simp [ccePatterns, hpc, hro]
      | true =>
        rcases h with ⟨pat', hmem, hbad⟩
        rcases List.mem_cons.mp hmem with heq | hmem'
        · subst heq
          rw [hpc, hro] at hbad
          exact absurd hbad (by simp)
        · simp only [ccePatterns, hpc, hro, if_pos rfl, if_true]
          exact ih _ _ ⟨pat', hmem', hbad⟩

/-- A bad pattern in the table makes the hearing-impaired pattern loop raise. -/
theorem rhiPatterns_bad : ∀ (pats : List Pattern) (t : String),
    (∃ pat ∈ pats, pat.compiled = none ∨ pat.replOk = false) →
    rhiPatterns pats t = .error .badPattern := by
  intro pats
  induction pats with
  | nil => intro t h; simp at h
  | cons pat rest ih =>
    intro t h
    cases hpc : pat.compiled with
    | none => simp [rhiPatterns, hpc]
    | some m =>
      cases hro : pat.replOk with
      | false => simp [rhiPatterns, hpc, hro]
      | true =>
        rcases h with ⟨pat', hmem, hbad⟩
        rcases List.mem_cons.mp hmem with heq | hmem'
        · subst heq
          rw [hpc, hro] at hbad
          exact absurd hbad (by simp)
        · simp only [rhiPatterns, hpc, hro, if_pos rfl, if_true]
          exact ih _ ⟨pat', hmem', hbad⟩

/-- A scan whose entry function raises on the first entry raises. -/
theorem scanEntries_error {f : String → Except Err String} {p : Project}
    {doc : Nat} {i : Nat} {is : List Nat} {e : Err}
    (h : f (p.textAt doc i) = .error e) :
    scanEntries f p doc (i :: is) = .error e := by
  simp only [scanEntries, h]

/-- Over good patterns the fallible pattern pass is the pure one. -/
theorem rhiPatterns_good : ∀ (pats : List Pattern) (t : String),
    (∀ pat ∈ pats, pat.compiled.isSome = true ∧ pat.replOk = true) →
    rhiPatterns pats t = .ok (rhiApply pats t) := by
  intro pats
  induction pats with
  | nil => intro t _; rfl
  | cons pat rest ih =>
    intro t h
    rcases h pat (by simp) with ⟨hc, hr⟩
    rcases Option.isSome_iff_exists.mp hc with ⟨m, hm⟩
    simp only [rhiPatterns, rhiApply, hm, hr, if_pos rfl, if_true]
    exact ih _ fun q hq => h q (by simp [hq])

/-- A scan whose entry function is the pure `g` collects exactly the
entries `g` changes, in order, paired with their new texts. -/
theorem scanEntries_pure {f : String → Except Err String}
    (g : String → String) (hfg : ∀ t, f t = .ok (g t)) (p : Project)
    (doc : Nat) : ∀ l : List Nat,
    scanEntries f p doc l =
      .ok ((l.filter fun i => g (p.textAt doc i) != p.textAt doc i).map
        fun i => (i, g (p.textAt doc i))) := by
  intro l
  induction l with
  | nil => rfl
  | cons i is ih =>
    simp only [scanEntries, hfg, ih, List.filter]
    by_cases hgt : g (p.textAt doc i) = p.textAt doc i
    · simp [hgt]
    · have hb : (g (p.textAt doc i) != p.textAt doc i) = true := by
        simp [bne_iff_ne]
        exact hgt
      simp [hgt, hb]

/-- The `set_action_description` step rewrites the label of the appended
action. -/
theorem setActionDescription_append (subs : List Subtitle)
    (l : List RAction) (a : RAction) (d : String) :
    setActionDescription ⟨subs, l ++ [a]⟩ d =
      ⟨subs, l ++ [{ a with description := d }]⟩ := by
  simp [setActionDescription]

/-- The operations recorded by appending one action. -/
theorem newOps_single (p : Project) (subs : List Subtitle) (a : RAction) :
    newOps p ⟨subs, p.actions ++ [a]⟩ = a.ops := by
  simp [newOps, List.drop_left]

/-- Grouping the last two committed actions into one. -/
theorem groupActions_two (subs : List Subtitle) (l : List RAction)
    (a b : RAction) (d : String) :
    groupActions ⟨subs, l ++ [a, b]⟩ 2 d = ⟨subs, l ++ [⟨d, a.ops ++ b.ops⟩]⟩ := by
  have hlen : (l ++ [a, b]).length - 2 = l.length := by
    simp
  have htake : (l ++ [a, b]).take ((l ++ [a, b]).length - 2) = l := by
    rw [hlen]
    exact List.take_left l [a, b]
  have hdrop : (l ++ [a, b]).drop ((l ++ [a, b]).length - 2) = [a, b] := by
    rw [hlen]
    exact List.drop_left l [a, b]
  simp [groupActions, htake, hdrop]

/-- The first sub-operation committed by a successful
`remove_hearing_impaired` is the text replacement at exactly the
pattern-pass-changed indexes, carrying the cleaned texts. -/
theorem rhi_ok_head (p : Project) (idxs : Option (List Nat)) (doc : Nat)
    (pats : List Pattern) (p' : Project)
    (hgood : ∀ pat ∈ pats.filter (·.enabled),
      pat.compiled.isSome = true ∧ pat.replOk = true)
    (hres : removeHearingImpaired p idxs doc pats = .ok (some p')) :
    (newOps p p').head? = some (SubOp.replaceTexts
      ((resolveIndexes p idxs).filter fun i =>
        rhiApply (pats.filter (·.enabled)) (p.textAt doc i) != p.textAt doc i)
      doc
      (removeLeftoverSpaces
        (((resolveIndexes p idxs).filter fun i =>
          rhiApply (pats.filter (·.enabled)) (p.textAt doc i) != p.textAt doc i).map
          fun i => rhiApply (pats.filter (·.enabled)) (p.textAt doc i)))) := by
  set g := rhiApply (pats.filter (·.enabled)) with hg
  set changed := (resolveIndexes p idxs).filter
    (fun i => g (p.textAt doc i) != p.textAt doc i) with hch
  have hscan : scanEntries (rhiPatterns (pats.filter (·.enabled))) p doc
      (resolveIndexes p idxs) =
      .ok (changed.map fun i => (i, g (p.textAt doc i))) :=
    scanEntries_pure g (fun t => rhiPatterns_good _ t hgood) p doc _
  unfold removeHearingImpaired at hres
  by_cases hv : validIndexes p idxs
  · by_cases hd : validDoc doc
    · simp only [hv, hd, Bool.not_true, Bool.false_eq_true, if_false] at hres
      rw [hscan] at hres
      dsimp only at hres
      have hni : (changed.map fun i => (i, g (p.textAt doc i))).map (·.1) =
          changed := by
        rw [List.map_map]
        exact List.map_id changed
      have hnt : (changed.map fun i => (i, g (p.textAt doc i))).map (·.2) =
          changed.map fun i => g (p.textAt doc i) := by
        rw [List.map_map]
        rfl
      rw [hni, hnt] at hres
      by_cases hemp : (changed.map fun i => (i, g (p.textAt doc i))).isEmpty
      · rw [if_pos hemp] at hres
        exact absurd hres (by simp)
      · rw [if_neg hemp] at hres
        set nt := removeLeftoverSpaces (changed.map fun i => g (p.textAt doc i))
          with hnt2
        set ri := ((changed.zip nt).filter fun it => it.2 == "").map (·.1)
          with hri2
        by_cases hri : ri.isEmpty
        · rw [if_pos hri] at hres
          have hp' := (Option.some.inj (Except.ok.inj hres)).symm
          rw [hp', replaceTextsOp, setActionDescription_append, newOps_single]
          rfl
        · rw [if_neg hri] at hres
          have hp' := (Option.some.inj (Except.ok.inj hres)).symm
          rw [hp', replaceTextsOp, setActionDescription_append, removeSubtitlesOp]
          dsimp only
          rw [show (p.actions ++
              [⟨"Removing hearing impaired texts", [SubOp.replaceTexts changed doc nt]⟩]) ++
              [⟨"", [SubOp.removeSubtitles ri]⟩] = p.actions ++
              [⟨"Removing hearing impaired texts", [SubOp.replaceTexts changed doc nt]⟩,
               ⟨"", [SubOp.removeSubtitles ri]⟩] from by simp,
            groupActions_two, newOps_single]
          rfl
    · have hd' : validDoc doc = false := by simpa using hd
      simp [hv, hd'] at hres
  · have hv' : validIndexes p idxs = false := by simpa using hv
    simp [hv'] at hres

/-! ## Claims -/

/-- C1, counterexample: on a two-entry collection, `capitalize` over the
index set `{1}` — a maximal run of consecutive integers that does not start
at collection index 0 — with no patterns reports `NoChange` and leaves the
run's first entry `"hello"` uncapitalized, although its first character is
an eligible capitalization target (second conjunct).  This falsifies the
claim that for every run the first entry has its first eligible character
capitalized, including runs that do not start at collection index 0. -/
theorem capitalize_run_not_at_zero_unchanged :
    capitalize ⟨[⟨"hello", ""⟩, ⟨"hello", ""⟩], []⟩ (some [1]) 0 [] =
      .ok none ∧
    capitalizePosition "hello" 0 = ("Hello", true) :=
  ⟨rfl, rfl⟩

/-- C1, amended: the index set is partitioned into maximal runs of
consecutive integers with the carry-over boolean reset at every run
boundary, but the initial capitalization applies only when the carry-over
is set or the entry's collection index is 0: with no enabled patterns,
processing any non-empty set of valid indexes that excludes index 0
changes nothing and yields `NoChange`. -/
theorem capitalize_no_first_of_run (p : Project) (l : List Nat) (doc : Nat)
    (hne : l ≠ []) (hlt : ∀ i ∈ l, i < p.subtitles.length) (h0 : 0 ∉ l)
    (hdoc : validDoc doc = true) :
    capitalize p (some l) doc [] = .ok none := by
  have hval : validIndexes p (some l) = true := by
    simp only [validIndexes, Option.getD_some]
    exact List.all_eq_true.mpr fun i hi => by
      simpa using hlt i hi
  have hres : resolveIndexes p (some l) = l := by
    cases l with
    | nil => exact absurd rfl hne
    | cons a as => rfl
  have hruns : capRuns [] p doc (getRanges l) = .ok [] := by
    refine capRuns_nil p doc _ fun r hr i hi => ?_
    intro hi0
    subst hi0
    exact h0 (getRanges_mem hr hi)
  simp [capitalize, hval, hdoc, hres, hruns]

/-- C1, witness for the amended theorem at a concrete input. -/
theorem capitalize_no_first_of_run_witness :
    capitalize ⟨[⟨"a", ""⟩, ⟨"b", ""⟩, ⟨"c", ""⟩], []⟩ (some [1, 2]) 0 [] =
      .ok none :=
  capitalize_no_first_of_run ⟨[⟨"a", ""⟩, ⟨"b", ""⟩, ⟨"c", ""⟩], []⟩ [1, 2] 0
    (by decide) (by decide) (by decide) rfl

/-- C2: in `correct_common_errors`, `repeats` is built from the full
pattern table while the loop enumerates only the enabled patterns, so with
a disabled first pattern whose repeat flag is set and an enabled second
pattern (`aa` → `a`) whose repeat flag is clear, the code repeats the
enabled pattern — `"aaaa"` becomes `"a"` — whereas consulting the applied
pattern's own flag (the spec-modelled `correctCommonErrorsSpec`) yields
`"aa"`. -/
theorem cce_repeat_flag_misaligned :
    correctCommonErrors 9 ⟨[⟨"aaaa", ""⟩], []⟩ none 0
      [⟨false, true, CapMode.noCap, some (litPattern "x" "y"), true⟩,
       ⟨true, false, CapMode.noCap, some (litPattern "aa" "a"), true⟩] =
      .ok (some ⟨[⟨"a", ""⟩],
        [⟨"Correcting common errors", [SubOp.replaceTexts [0] 0 ["a"]]⟩]⟩) ∧
    correctCommonErrorsSpec 9 ⟨[⟨"aaaa", ""⟩], []⟩ none 0
      [⟨false, true, CapMode.noCap, some (litPattern "x" "y"), true⟩,
       ⟨true, false, CapMode.noCap, some (litPattern "aa" "a"), true⟩] =
      .ok (some ⟨[⟨"aa", ""⟩],
        [⟨"Correcting common errors", [SubOp.replaceTexts [0] 0 ["aa"]]⟩]⟩) :=
  ⟨rfl, rfl⟩

/-- C3: with `skip` set and no markup tag regex, `break_lines` never
recomputes the tag-stripped metrics from the candidate, so an entry whose
original length (9) exceeds `max_skip_length` (4) is skipped even though
the candidate `"aaaa\nbbbb"` reduces the maximal line length to 4 (second
and third conjuncts), and the whole operation reports `NoChange`; the same
input with a (trivial) tag regex present commits the improved candidate
(last conjunct). -/
theorem break_lines_skip_no_tag_regex :
    breakLines ⟨[⟨"aaaa bbbb", ""⟩], []⟩ none 0 [] (fun _ => "aaaa\nbbbb")
      none String.length true 4 2 = .ok none ∧
    maxList ((splitLines "aaaa\nbbbb").map String.length) <
      maxList ((splitLines "aaaa bbbb").map String.length) ∧
    4 < maxList ((splitLines "aaaa bbbb").map String.length) ∧
    breakLines ⟨[⟨"aaaa bbbb", ""⟩], []⟩ none 0 [] (fun _ => "aaaa\nbbbb")
      (some (fun sx => sx)) String.length true 4 2 =
      .ok (some ⟨[⟨"aaaa\nbbbb", ""⟩],
        [⟨"Breaking lines", [SubOp.replaceTexts [0] 0 ["aaaa\nbbbb"]]⟩]⟩) :=
  ⟨rfl, by decide, by decide, rfl⟩

/-- C4, counterexample: `correct_common_errors` compiles patterns lazily
per entry, so on an empty collection an enabled pattern whose source does
not compile produces `NoChange` instead of raising (first conjunct); and
`capitalize` never applies replacement templates, so an enabled pattern
whose replacement references a non-existent group does not raise there —
the operation commits normally (second conjunct).  Both falsify the claim
that every batch operation raises in those situations. -/
theorem lazy_compile_no_raise :
    correctCommonErrors 9 ⟨[], []⟩ none 0
      [⟨true, false, CapMode.noCap, none, true⟩] = .ok none ∧
    capitalize ⟨[⟨"hi", ""⟩], []⟩ none 0
      [⟨true, false, CapMode.noCap, some (litPattern "zzz" ""), false⟩] =
      .ok (some ⟨[⟨"Hi", ""⟩],
        [⟨"Capitalizing texts", [SubOp.replaceTexts [0] 0 ["Hi"]]⟩]⟩) :=
  ⟨rfl, rfl⟩

/-- C4, amended: an invalid explicit index makes every batch operation
raise `InvalidIndex`; an invalid document selector makes every batch
operation raise `InvalidDocument` (for `break_lines` after its eager
pattern compilation); `break_lines` raises `BadPattern` for a bad enabled
pattern source before looking at any entry, while `capitalize`,
`correct_common_errors` and `remove_hearing_impaired` raise `BadPattern`
(for a bad source, or — where replacements are applied — a bad replacement
template) only when at least one entry is processed.  Every error result
carries no project: the collection is mutated only by a successful
outcome, after the scan. -/
theorem batch_errors_atomic :
    (∀ (p : Project) (l : List Nat) (doc : Nat) (pats : List Pattern)
        (fuel : Nat) (breakFn : String → String)
        (reTag : Option (String → String)) (lf : String → Nat) (skip : Bool)
        (msl mskl : Nat), validIndexes p (some l) = false →
      capitalize p (some l) doc pats = .error .invalidIndex ∧
      correctCommonErrors fuel p (some l) doc pats = .error .invalidIndex ∧
      removeHearingImpaired p (some l) doc pats = .error .invalidIndex ∧
      breakLines p (some l) doc pats breakFn reTag lf skip msl mskl =
        .error .invalidIndex) ∧
    (∀ (p : Project) (idxs : Option (List Nat)) (doc : Nat)
        (pats : List Pattern) (fuel : Nat) (breakFn : String → String)
        (reTag : Option (String → String)) (lf : String → Nat) (skip : Bool)
        (msl mskl : Nat),
        validIndexes p idxs = true → validDoc doc = false →
      capitalize p idxs doc pats = .error .invalidDocument ∧
      correctCommonErrors fuel p idxs doc pats = .error .invalidDocument ∧
      removeHearingImpaired p idxs doc pats = .error .invalidDocument ∧
      ((pats.filter (·.enabled)).any (fun x => x.compiled.isNone) = false →
        breakLines p idxs doc pats breakFn reTag lf skip msl mskl =
          .error .invalidDocument)) ∧
    (∀ (p : Project) (idxs : Option (List Nat)) (doc : Nat)
        (pats : List Pattern) (breakFn : String → String)
        (reTag : Option (String → String)) (lf : String → Nat) (skip : Bool)
        (msl mskl : Nat),
        validIndexes p idxs = true →
        (pats.filter (·.enabled)).any (fun x => x.compiled.isNone) = true →
      breakLines p idxs doc pats breakFn reTag lf skip msl mskl =
        .error .badPattern) ∧
    (∀ (p : Project) (idxs : Option (List Nat)) (doc : Nat)
        (pats : List Pattern),
        validIndexes p idxs = true → validDoc doc = true →
        resolveIndexes p idxs ≠ [] →
        (∃ pat ∈ pats, pat.enabled = true ∧ pat.compiled = none) →
      capitalize p idxs doc pats = .error .badPattern) ∧
    (∀ (p : Project) (idxs : Option (List Nat)) (doc : Nat)
        (pats : List Pattern) (fuel : Nat),
        validIndexes p idxs = true → validDoc doc = true →
        resolveIndexes p idxs ≠ [] →
        (∃ pat ∈ pats, pat.enabled = true ∧
          (pat.compiled = none ∨ pat.replOk = false)) →
      correctCommonErrors fuel p idxs doc pats = .error .badPattern ∧
      removeHearingImpaired p idxs doc pats = .error .badPattern) := by
  refine ⟨?_, ?_, ?_, ?_, ?_⟩
  · intro p l doc pats fuel breakFn reTag lf skip msl mskl h
    refine ⟨?_, ?_, ?_, ?_⟩ <;> simp [capitalize, correctCommonErrors,
      removeHearingImpaired, breakLines, h]
  · intro p idxs doc pats fuel breakFn reTag lf skip msl mskl hidx hdoc
    refine ⟨?_, ?_, ?_, fun hcomp => ?_⟩
    · simp [capitalize, hidx, hdoc]
    · simp [correctCommonErrors, hidx, hdoc]
    · simp [removeHearingImpaired, hidx, hdoc]
    · simp [breakLines, hidx, hdoc, hcomp]
  · intro p idxs doc pats breakFn reTag lf skip msl mskl hidx hcomp
    simp [breakLines, hidx, hcomp]
  · intro p idxs doc pats hidx hdoc hne hbad
    have hfil : ∃ pat ∈ pats.filter (·.enabled), pat.compiled = none := by
      rcases hbad with ⟨pat, hmem, hen, hc⟩
      exact ⟨pat, List.mem_filter.mpr ⟨hmem, by simp [hen]⟩, hc⟩
    rcases getRanges_shape hne with ⟨i, is, rs, hr⟩
    have hruns : capRuns pats p doc (getRanges (resolveIndexes p idxs)) =
        .error .badPattern := by
      rw [hr]
      simp only [capRuns, capRun_bad hfil]
    simp [capitalize, hidx, hdoc, hruns]
  · intro p idxs doc pats fuel hidx hdoc hne hbad
    have hfil : ∃ pat ∈ pats.filter (·.enabled),
        pat.compiled = none ∨ pat.replOk = false := by
      rcases hbad with ⟨pat, hmem, hen, hc⟩
      exact ⟨pat, List.mem_filter.mpr ⟨hmem, by simp [hen]⟩, hc⟩
    rcases List.exists_cons_of_ne_nil hne with ⟨i, is, hl⟩
    constructor
    · have hscan : scanEntries
          (ccePatterns fuel (pats.map (·.repeatFlag)) 0 (pats.filter (·.enabled)))
          p doc (resolveIndexes p idxs) = .error .badPattern := by
        rw [hl]
        exact scanEntries_error (ccePatterns_bad fuel _ _ _ _ hfil)
      simp [correctCommonErrors, hidx, hdoc, hscan]
    · have hscan : scanEntries (rhiPatterns (pats.filter (·.enabled)))
          p doc (resolveIndexes p idxs) = .error .badPattern := by
        rw [hl]
        exact scanEntries_error (rhiPatterns_bad _ _ hfil)
      simp [removeHearingImpaired, hidx, hdoc, hscan]

/-- C4, witness: each part of the amended theorem applied at a concrete
input. -/
theorem batch_errors_atomic_witness :
    capitalize ⟨[], []⟩ (some [0]) 0 [] = .error .invalidIndex ∧
    breakLines ⟨[], []⟩ (some [0]) 0 [] (fun sx => sx) none (fun _ => 0)
      false 0 0 = .error .invalidIndex ∧
    capitalize ⟨[⟨"a", ""⟩], []⟩ none 5 [] = .error .invalidDocument ∧
    breakLines ⟨[⟨"a", ""⟩], []⟩ none 5 [] (fun sx => sx) none (fun _ => 0)
      false 0 0 = .error .invalidDocument ∧
    breakLines ⟨[⟨"a", ""⟩], []⟩ none 0
      [⟨true, false, CapMode.noCap, none, true⟩] (fun sx => sx) none
      (fun _ => 0) false 0 0 = .error .badPattern ∧
    capitalize ⟨[⟨"a", ""⟩], []⟩ none 0
      [⟨true, false, CapMode.noCap, none, true⟩] = .error .badPattern ∧
    correctCommonErrors 9 ⟨[⟨"a", ""⟩], []⟩ none 0
      [⟨true, false, CapMode.noCap, none, true⟩] = .error .badPattern ∧
    removeHearingImpaired ⟨[⟨"a", ""⟩], []⟩ none 0
      [⟨true, false, CapMode.noCap, none, true⟩] = .error .badPattern := by
  refine ⟨(batch_errors_atomic.1 ⟨[], []⟩ [0] 0 [] 9 (fun sx => sx) none
      (fun _ => 0) false 0 0 rfl).1,
    (batch_errors_atomic.1 ⟨[], []⟩ [0] 0 [] 9 (fun sx => sx) none
      (fun _ => 0) false 0 0 rfl).2.2.2,
    (batch_errors_atomic.2.1 ⟨[⟨"a", ""⟩], []⟩ none 5 [] 9 (fun sx => sx) none
      (fun _ => 0) false 0 0 rfl rfl).1,
    (batch_errors_atomic.2.1 ⟨[⟨"a", ""⟩], []⟩ none 5 [] 9 (fun sx => sx) none
      (fun _ => 0) false 0 0 rfl rfl).2.2.2 rfl,
    batch_errors_atomic.2.2.1 ⟨[⟨"a", ""⟩], []⟩ none 0
      [⟨true, false, CapMode.noCap, none, true⟩] (fun sx => sx) none
      (fun _ => 0) false 0 0 rfl rfl,
    batch_errors_atomic.2.2.2.1 ⟨[⟨"a", ""⟩], []⟩ none 0
      [⟨true, false, CapMode.noCap, none, true⟩] rfl rfl (by decide)
      ⟨⟨true, false, CapMode.noCap, none, true⟩, by simp, rfl, rfl⟩,
    (batch_errors_atomic.2.2.2.2 ⟨[⟨"a", ""⟩], []⟩ none 0
      [⟨true, false, CapMode.noCap, none, true⟩] 9 rfl rfl (by decide)
      ⟨⟨true, false, CapMode.noCap, none, true⟩, by simp, rfl, Or.inl rfl⟩).1,
    (batch_errors_atomic.2.2.2.2 ⟨[⟨"a", ""⟩], []⟩ none 0
      [⟨true, false, CapMode.noCap, none, true⟩] 9 rfl rfl (by decide)
      ⟨⟨true, false, CapMode.noCap, none, true⟩, by simp, rfl, Or.inl rfl⟩).2⟩

/-- C5, counterexample: with the single enabled pattern `ab` → `ba`
(repeat flag clear), `correct_common_errors` turns `"aab"` into `"aba"`
and commits; running it again on the result is not `NoChange` — the
substitution created a new match, so the second run commits another
change.  This falsifies the claim that all-repeat-false tables make a
second run yield `NoChange`. -/
theorem cce_not_idempotent :
    correctCommonErrors 9 ⟨[⟨"aab", ""⟩], []⟩ none 0
      [⟨true, false, CapMode.noCap, some (litPattern "ab" "ba"), true⟩] =
      .ok (some ⟨[⟨"aba", ""⟩],
        [⟨"Correcting common errors", [SubOp.replaceTexts [0] 0 ["aba"]]⟩]⟩) ∧
    correctCommonErrors 9
      ⟨[⟨"aba", ""⟩],
        [⟨"Correcting common errors", [SubOp.replaceTexts [0] 0 ["aba"]]⟩]⟩
      none 0
      [⟨true, false, CapMode.noCap, some (litPattern "ab" "ba"), true⟩] ≠
      .ok none := by
  refine ⟨rfl, fun h => ?_⟩
  exact Option.noConfusion (Except.ok.inj h)

/-- C5, amended: for a pattern table with all repeat flags clear, a second
run of `correct_common_errors` on the committed result yields `NoChange`
provided every processed entry's text after the first run is a fixed point
of one more application of the pattern pipeline; without that proviso a
replacement can create new matches and the second run commits again. -/
theorem cce_second_run_fixed (fuel : Nat) (p : Project)
    (idxs : Option (List Nat)) (doc : Nat) (pats : List Pattern) (p1 : Project)
    (_hrep : ∀ pat ∈ pats, pat.repeatFlag = false)
    (h1 : correctCommonErrors fuel p idxs doc pats = .ok (some p1))
    (hfix : ∀ i ∈ resolveIndexes p1 idxs,
      ccePatterns fuel (pats.map (·.repeatFlag)) 0 (pats.filter (·.enabled))
        (p1.textAt doc i) = .ok (p1.textAt doc i)) :
    correctCommonErrors fuel p1 idxs doc pats = .ok none := by
  unfold correctCommonErrors at h1 ⊢
  by_cases hv : validIndexes p idxs
  · by_cases hd : validDoc doc
    · simp only [hv, hd, Bool.not_true, Bool.false_eq_true, if_false] at h1
      have hlen : p1.subtitles.length = p.subtitles.length := by
        revert h1
        cases hscan : scanEntries
            (ccePatterns fuel (pats.map (·.repeatFlag)) 0 (pats.filter (·.enabled)))
            p doc (resolveIndexes p idxs) with
        | error e => intro h1; exact absurd h1 (by simp)
        | ok changes =>
          intro h1
          dsimp only at h1
          by_cases hne : changes.isEmpty
          · rw [if_pos hne] at h1
            exact absurd h1 (by simp)
          · rw [if_neg hne] at h1
            have hq := Option.some.inj (Except.ok.inj h1)
            rw [← hq, setActionDescription_subtitles]
            exact setTexts_length _ _ _ _
      have hv1 : validIndexes p1 idxs = true := by
        rw [validIndexes_congr idxs hlen]
        exact hv
      simp only [hv1, hd, Bool.not_true, Bool.false_eq_true, if_false]
      rw [scanEntries_fixed _ _ _ _ hfix]
      rfl
    · have hd' : validDoc doc = false := by
        simpa using hd
      simp [hv, hd'] at h1
  · have hv' : validIndexes p idxs = false := by
      simpa using hv
    simp [hv'] at h1

/-- C5, witness for the amended theorem: the spec's literal scenario
`teh` → `the` on `"I saw teh cat"`; the first run commits
`"I saw the cat"`, which is a fixed point, and the second run yields
`NoChange`. -/
theorem cce_second_run_fixed_witness :
    correctCommonErrors 9 ⟨[⟨"I saw teh cat", ""⟩], []⟩ none 0
      [⟨true, false, CapMode.noCap, some (litPattern "teh" "the"), true⟩] =
      .ok (some ⟨[⟨"I saw the cat", ""⟩],
        [⟨"Correcting common errors",
          [SubOp.replaceTexts [0] 0 ["I saw the cat"]]⟩]⟩) ∧
    correctCommonErrors 9 ⟨[⟨"I saw the cat", ""⟩],
        [⟨"Correcting common errors",
          [SubOp.replaceTexts [0] 0 ["I saw the cat"]]⟩]⟩ none 0
      [⟨true, false, CapMode.noCap, some (litPattern "teh" "the"), true⟩] =
      .ok none := by
  refine ⟨rfl, ?_⟩
  exact cce_second_run_fixed 9 ⟨[⟨"I saw teh cat", ""⟩], []⟩ none 0
    [⟨true, false, CapMode.noCap, some (litPattern "teh" "the"), true⟩]
    ⟨[⟨"I saw the cat", ""⟩],
      [⟨"Correcting common errors",
        [SubOp.replaceTexts [0] 0 ["I saw the cat"]]⟩]⟩
    (by
      intro pat hp
      simp only [List.mem_singleton] at hp
      subst hp
      rfl)
    rfl
    (by
      intro i hi
      have hi0 : i = 0 := Nat.lt_one_iff.mp (List.mem_range.mp hi)
      subst hi0
      rfl)

/-- C6: for a contiguous two-entry run `[0, 1]` whose single enabled
pattern has capitalize mode `After` and, on the first entry (after its
initial capitalization), exactly one match ending at the very end of the
text, the carry-over flag comes out of the first entry set (first
conjunct), and the second entry — which the pattern does not match at all
— has its leading eligible character uppercased in the committed result
(the existential). -/
theorem capitalize_after_carry_over (m : CompiledPattern) (t0 t1 : String)
    (a : Nat)
    (h1 : m.find (capitalizePosition t0 0).1 0 =
      some (a, (capitalizePosition t0 0).1.length))
    (h2 : m.find (capitalizePosition t0 0).1
      (capitalizePosition t0 0).1.length = none)
    (h3 : m.find (capitalizePosition t1 0).1 0 = none)
    (h4 : (capitalizePosition t1 0).2 = true)
    (h5 : (capitalizePosition t1 0).1 ≠ t1) :
    capEntry [⟨true, false, CapMode.capAfter, some m, true⟩] false 0 t0 =
      .ok ((capitalizePosition t0 0).1, true) ∧
    ∃ p', capitalize ⟨[⟨t0, ""⟩, ⟨t1, ""⟩], []⟩ (some [0, 1]) 0
        [⟨true, false, CapMode.capAfter, some m, true⟩] = .ok (some p') ∧
      p'.textAt 0 1 = (capitalizePosition t1 0).1 ∧
      (capitalizePosition t1 0).1 = setUpperAt t1 0 := by
  set c0 := (capitalizePosition t0 0).1 with hc0
  set c1 := (capitalizePosition t1 0).1 with hc1
  set P : Project := ⟨[⟨t0, ""⟩, ⟨t1, ""⟩], []⟩ with hP
  set pat : Pattern := ⟨true, false, CapMode.capAfter, some m, true⟩ with hpat
  have stepA : capitalizeText (c0.length + 1) m CapMode.capAfter ⟨c0, 0⟩ false =
      (⟨c0, c0.length⟩, true) := by
    simp only [capitalizeText, h1, capitalizePosition_at_length]
    cases hlen : c0.length with
    | zero => rfl
    | succ n => exact capitalizeText_stop _ m _ _ _ (by simpa [hlen] using h2)
  have stepB : capEntry [pat] false 0 t0 = .ok (c0, true) := by
    have hu : capEntry [pat] false 0 t0 = capPatterns [pat] c0 false := rfl
    rw [hu, capPatterns_cons_some pat [] c0 false m rfl, stepA]
    rfl
  have stepC : capEntry [pat] true 1 t1 = .ok (c1, false) := by
    have hu : capEntry [pat] true 1 t1 = capPatterns [pat] c1 false := rfl
    rw [hu, capPatterns_cons_some pat [] c1 false m rfl,
      capitalizeText_stop (c1.length + 1) m CapMode.capAfter ⟨c1, 0⟩ false h3]
    rfl
  have hF : c1 = setUpperAt t1 0 := by
    rw [hc1]
    unfold capitalizePosition at h4 ⊢
    simp only [List.drop_zero] at h4 ⊢
    by_cases hcap : capitalizableFrom t1.data
    · simp [hcap]
    · simp [hcap] at h4
  have run2 : capRun [pat] P 0 [1] true = .ok [(1, c1)] := by
    have hu : capRun [pat] P 0 [1] true =
        (match capEntry [pat] true 1 t1 with
         | .error e => .error e
         | .ok r =>
            match capRun [pat] P 0 [] r.2 with
            | .error e => .error e
            | .ok rest => .ok (if r.1 = t1 then rest else (1, r.1) :: rest)) := rfl
    have hnil : capRun [pat] P 0 [] false = .ok [] := rfl
    rw [hu, stepC]
    dsimp only
    rw [hnil]
    dsimp only
    rw [if_neg h5]
  have run1 : capRun [pat] P 0 [0, 1] false =
      .ok (if c0 = t0 then [(1, c1)] else (0, c0) :: [(1, c1)]) := by
    have hu : capRun [pat] P 0 [0, 1] false =
        (match capEntry [pat] false 0 t0 with
         | .error e => .error e
         | .ok r =>
            match capRun [pat] P 0 [1] r.2 with
            | .error e => .error e
            | .ok rest => .ok (if r.1 = t0 then rest else (0, r.1) :: rest)) := rfl
    rw [hu, stepB]
    dsimp only
    rw [run2]
  have runs : capRuns [pat] P 0 [[0, 1]] =
      .ok ((if c0 = t0 then [(1, c1)] else (0, c0) :: [(1, c1)]) ++ []) := by
    have hu : capRuns [pat] P 0 [[0, 1]] =
        (match capRun [pat] P 0 [0, 1] false with
         | .error e => .error e
         | .ok cs =>
            match capRuns [pat] P 0 [] with
            | .error e => .error e
            | .ok cs2 => .ok (cs ++ cs2)) := rfl
    have hnil2 : capRuns [pat] P 0 [] = .ok [] := rfl
    rw [hu, run1]
    dsimp only
    rw [hnil2]
  have hbody : capitalize P (some [0, 1]) 0 [pat] =
      (match capRuns [pat] P 0 [[0, 1]] with
       | .error e => .error e
       | .ok changes =>
          if changes.isEmpty then .ok none
          else .ok (some (setActionDescription
            (replaceTextsOp P (changes.map (·.1)) 0 (changes.map (·.2)))
            "Capitalizing texts"))) := rfl
  refine ⟨stepB, ?_⟩
  by_cases hcc : c0 = t0
  · refine ⟨setActionDescription (replaceTextsOp P [1] 0 [c1])
      "Capitalizing texts", ?_, ?_, hF⟩
    · rw [hbody, runs, if_pos hcc]
      rfl
    · rfl
  · refine ⟨setActionDescription (replaceTextsOp P [0, 1] 0 [c0, c1])
      "Capitalizing texts", ?_, ?_, hF⟩
    · rw [hbody, runs, if_neg hcc]
      rfl
    · rfl

/-- C6, witness: the pattern is the literal `"."` with mode `After`; the
first entry `"hi."` (capitalized to `"Hi."`) has its only match ending at
the end of the text, and the second entry `"you"` comes out `"You"`. -/
theorem capitalize_after_carry_over_witness :
    capEntry [⟨true, false, CapMode.capAfter, some (litPattern "." ""), true⟩]
        false 0 "hi." = .ok ((capitalizePosition "hi." 0).1, true) ∧
    ∃ p', capitalize ⟨[⟨"hi.", ""⟩, ⟨"you", ""⟩], []⟩ (some [0, 1]) 0
        [⟨true, false, CapMode.capAfter, some (litPattern "." ""), true⟩] =
        .ok (some p') ∧
      p'.textAt 0 1 = (capitalizePosition "you" 0).1 ∧
      (capitalizePosition "you" 0).1 = setUpperAt "you" 0 :=
  capitalize_after_carry_over (litPattern "." "") "hi." "you" 2 rfl rfl rfl rfl
    (by decide)

/-- C7: the leftover-space cleanup is exactly the seven steps in the
claimed order — trim whitespace, collapse multiple spaces, blank out
all-non-word text, trim newlines, space after a leading dash, merge a
dash-prefixed first line, strip a lone leading dash (first conjunct) —
and in `remove_hearing_impaired` it is applied to exactly the texts the
pattern pass changed: the committed replacement carries the changed
indexes with the seven-step composition of their pattern-pass texts
(second conjunct). -/
theorem rhi_cleanup_pipeline :
    (∀ texts : List String, removeLeftoverSpaces texts =
      texts.map fun t => stripLoneDash (mergeDashLine (dashSpace (trimNl
        (blankNonWord (collapseSpaces (trimWs t))))))) ∧
    (∀ (p : Project) (idxs : Option (List Nat)) (doc : Nat)
        (pats : List Pattern) (p' : Project),
      (∀ pat ∈ pats.filter (·.enabled),
        pat.compiled.isSome = true ∧ pat.replOk = true) →
      removeHearingImpaired p idxs doc pats = .ok (some p') →
      (newOps p p').head? = some (SubOp.replaceTexts
        ((resolveIndexes p idxs).filter fun i =>
          rhiApply (pats.filter (·.enabled)) (p.textAt doc i) != p.textAt doc i)
        doc
        (((resolveIndexes p idxs).filter fun i =>
          rhiApply (pats.filter (·.enabled)) (p.textAt doc i) != p.textAt doc i).map
          fun i => stripLoneDash (mergeDashLine (dashSpace (trimNl (blankNonWord
            (collapseSpaces (trimWs (rhiApply (pats.filter (·.enabled))
              (p.textAt doc i))))))))))) := by
  constructor
  · intro texts
    rfl
  · intro p idxs doc pats p' hgood hres
    have h := rhi_ok_head p idxs doc pats p' hgood hres
    rw [h]
    simp only [removeLeftoverSpaces, List.map_map]
    rfl

/-- C7, witness: one entry `"[A] - hi"` under the bracket pattern; the
pattern pass yields `" - hi"` and the pipeline trims it to `"- hi"` and
finally strips the lone dash, committing `["hi"]` at index `[0]`. -/
theorem rhi_cleanup_pipeline_witness :
    (newOps ⟨[⟨"[A] - hi", ""⟩], []⟩ ⟨[⟨"hi", ""⟩],
        [⟨"Removing hearing impaired texts",
          [SubOp.replaceTexts [0] 0 ["hi"]]⟩]⟩).head? =
      some (SubOp.replaceTexts [0] 0 ["hi"]) := by
  have h := rhi_cleanup_pipeline.2 ⟨[⟨"[A] - hi", ""⟩], []⟩ none 0
    [⟨true, false, CapMode.noCap, some bracketPattern, true⟩]
    ⟨[⟨"hi", ""⟩], [⟨"Removing hearing impaired texts",
      [SubOp.replaceTexts [0] 0 ["hi"]]⟩]⟩
    (by
      intro pat hp
      simp only [List.filter, List.mem_singleton] at hp
      subst hp
      exact ⟨rfl, rfl⟩)
    rfl
  exact h

/-- C8: `remove_hearing_impaired` with the enabled pattern `\[.*?\]` and
empty replacement on the single entry `"[PHONE RINGING]"` empties the
cleaned text, removes the entry from the collection, and commits one
grouped action labeled "Removing hearing impaired texts" carrying the text
replacement and the removal. -/
theorem rhi_cascading_removal :
    removeHearingImpaired ⟨[⟨"[PHONE RINGING]", ""⟩], []⟩ none 0
      [⟨true, false, CapMode.noCap, some bracketPattern, true⟩] =
      .ok (some ⟨[],
        [⟨"Removing hearing impaired texts",
          [SubOp.replaceTexts [0] 0 [""], SubOp.removeSubtitles [0]]⟩]⟩) := by
  rfl

/-- C9: `capitalize` with an enabled `Start` pattern matching `"..."`
leaves `"...hello"` unchanged (the first word character is immediately
preceded by the literal `"..."`, so the whole operation is `NoChange`),
while on `"hello"` it commits `"Hello"`. -/
theorem capitalize_ellipsis_guard :
    capitalize ⟨[⟨"...hello", ""⟩], []⟩ none 0
      [⟨true, false, CapMode.capStart, some (litPattern "..." ""), true⟩] =
      .ok none ∧
    capitalize ⟨[⟨"hello", ""⟩], []⟩ none 0
      [⟨true, false, CapMode.capStart, some (litPattern "..." ""), true⟩] =
      .ok (some ⟨[⟨"Hello", ""⟩],
        [⟨"Capitalizing texts", [SubOp.replaceTexts [0] 0 ["Hello"]]⟩]⟩) :=
  ⟨rfl, rfl⟩

/-- C10: in `remove_hearing_impaired`, an entry counts as changed by the
pattern pass alone, before any cleanup: the committed replacement indexes
are exactly those whose pattern-pass text differs from the original (an
entry whose post-cleanup text equals its original is still included), and
the committed texts apply the cleanup only to those pattern-pass texts (an
entry the pattern pass left unchanged is never cleaned). -/
theorem rhi_changed_decided_before_cleanup (p : Project)
    (idxs : Option (List Nat)) (doc : Nat) (pats : List Pattern)
    (p' : Project)
    (hgood : ∀ pat ∈ pats.filter (·.enabled),
      pat.compiled.isSome = true ∧ pat.replOk = true)
    (hres : removeHearingImpaired p idxs doc pats = .ok (some p')) :
    ∃ ni nt, (newOps p p').head? = some (SubOp.replaceTexts ni doc nt) ∧
      ni = (resolveIndexes p idxs).filter (fun i =>
        rhiApply (pats.filter (·.enabled)) (p.textAt doc i) != p.textAt doc i) ∧
      nt = removeLeftoverSpaces (ni.map fun i =>
        rhiApply (pats.filter (·.enabled)) (p.textAt doc i)) ∧
      (∀ i ∈ resolveIndexes p idxs,
        (i ∈ ni ↔ rhiApply (pats.filter (·.enabled)) (p.textAt doc i) ≠
          p.textAt doc i)) := by
  refine ⟨_, _, rhi_ok_head p idxs doc pats p' hgood hres, rfl, rfl, ?_⟩
  intro i hi
  simp [List.mem_filter, hi, bne_iff_ne]

/-- C10, witness: the pattern `"a b"` → `"a  b"` changes the entry
`"a b"`, and the cleanup collapses the double space back — the committed
replacement still lists index 0, with a text equal to the original. -/
theorem rhi_changed_decided_before_cleanup_witness :
    ∃ ni nt, (newOps ⟨[⟨"a b", ""⟩], []⟩ ⟨[⟨"a b", ""⟩],
        [⟨"Removing hearing impaired texts",
          [SubOp.replaceTexts [0] 0 ["a b"]]⟩]⟩).head? =
        some (SubOp.replaceTexts ni 0 nt) ∧
      ni = (resolveIndexes ⟨[⟨"a b", ""⟩], []⟩ none).filter (fun i =>
        rhiApply ([⟨true, false, CapMode.noCap,
            some (litPattern "a b" "a  b"), true⟩].filter (·.enabled))
          (Project.textAt ⟨[⟨"a b", ""⟩], []⟩ 0 i) !=
          Project.textAt ⟨[⟨"a b", ""⟩], []⟩ 0 i) ∧
      nt = removeLeftoverSpaces (ni.map fun i =>
        rhiApply ([⟨true, false, CapMode.noCap,
            some (litPattern "a b" "a  b"), true⟩].filter (·.enabled))
          (Project.textAt ⟨[⟨"a b", ""⟩], []⟩ 0 i)) ∧
      (∀ i ∈ resolveIndexes ⟨[⟨"a b", ""⟩], []⟩ none,
        (i ∈ ni ↔ rhiApply ([⟨true, false, CapMode.noCap,
            some (litPattern "a b" "a  b"), true⟩].filter (·.enabled))
          (Project.textAt ⟨[⟨"a b", ""⟩], []⟩ 0 i) ≠
          Project.textAt ⟨[⟨"a b", ""⟩], []⟩ 0 i)) :=
  rhi_changed_decided_before_cleanup ⟨[⟨"a b", ""⟩], []⟩ none 0
    [⟨true, false, CapMode.noCap, some (litPattern "a b" "a  b"), true⟩]
    ⟨[⟨"a b", ""⟩], [⟨"Removing hearing impaired texts",
      [SubOp.replaceTexts [0] 0 ["a b"]]⟩]⟩
    (by
      intro pat hp
      simp only [List.filter, List.mem_singleton] at hp
      subst hp
      exact ⟨rfl, rfl⟩)
    rfl

end Gaupol
